import Mathlib

/-!
Verification of the fuzzy word completer
(`prompt_toolkit/completion/fuzzy_completer.py`).

The file shallowly embeds the module in Lean: Python strings become
`List Char`, the `_FuzzyMatch` namedtuple becomes the structure
`FuzzyMatch`, the compiled lookahead regex
`(?=(q0.*?q1.*? ... qn))` with `re.IGNORECASE` becomes the greedy
scan `groupLen` / `lazyTail` / `findCharIC` (a lazy `.*?` always takes
the nearest later occurrence of the next literal; `.` matches every
character except the newline; `re.IGNORECASE` is modelled by comparing
`Char.toLower` images), `re.finditer` over a word becomes the
enumeration `matchesOf` of every start position, Python `min(_, key=_)`
becomes `minBy`, Python `sorted(_, key=_)` (a stable sort) becomes
`List.insertionSort` by the same key, and the `Completion` constructor
call becomes the record `Completion`.
-/

namespace FuzzyCompleter

/-- Case-insensitive character comparison: the model of `re.IGNORECASE`
matching a literal pattern character `c` against a word character `d`. -/
def eqIC (d c : Char) : Prop := d.toLower = c.toLower

instance (d c : Char) : Decidable (eqIC d c) := by unfold eqIC; infer_instance

/-- Model of the lazy gap `.*?c` of the compiled pattern: the index of the
first character of `w` that matches the literal `c` case-insensitively.
The scan stops at a newline because `.` does not match a newline
(`re.DOTALL` is not passed), so occurrences of `c` beyond a newline are
unreachable. -/
def findCharIC (c : Char) : List Char → Option Nat
  | [] => none
  | d :: w =>
    if eqIC d c then some 0
    else if d = '\n' then none
    else (findCharIC c w).map (· + 1)

/-- Model of the tail `.*?q1.*?q2 ... qn` of the compiled pattern matched
against `w`: the number of characters of `w` the tail consumes, each query
character taken at its nearest admissible position (the lazy-quantifier
semantics of the regex). -/
def lazyTail : List Char → List Char → Option Nat
  | [], _ => some 0
  | c :: q, w =>
    (findCharIC c w).bind fun j =>
      (lazyTail q (w.drop (j + 1))).map fun r => j + 1 + r

/-- Model of the full group `q0.*?q1 ... qn` matched at the start of `w`:
`len(m.group(1))` of a lookahead match anchored at this position.  The
first query character must sit exactly at the start. -/
def groupLen : List Char → List Char → Option Nat
  | [], _ => some 0
  | _ :: _, [] => none
  | c :: q, d :: w => if eqIC d c then (lazyTail q w).map (· + 1) else none

/-- Model of `list(regex.finditer(word))`: the lookahead pattern is tried
at every position `0 .. word.length` (zero-width matches do not consume),
and each successful position contributes the pair
`(m.start(), len(m.group(1)))`. -/
def matchesOf (q w : List Char) : List (Nat × Nat) :=
  (List.range (w.length + 1)).filterMap fun i =>
    (groupLen q (w.drop i)).map fun L => (i, L)

/-- Strict lexicographic order on the sort key
`(m.start(), len(m.group(1)))`, the comparison Python `min` performs on
key tuples. -/
def pairLt (x y : Nat × Nat) : Prop :=
  x.1 < y.1 ∨ (x.1 = y.1 ∧ x.2 < y.2)

instance (x y : Nat × Nat) : Decidable (pairLt x y) := by
  unfold pairLt; infer_instance

/-- Model of Python `min(a :: l, key)`: scan left to right, replacing the
current minimum only on a strictly smaller key, so the first minimum wins. -/
def minBy (a : Nat × Nat) (l : List (Nat × Nat)) : Nat × Nat :=
  l.foldl (fun acc x => if pairLt x acc then x else acc) a

/-- The `_FuzzyMatch` namedtuple: `_FuzzyMatch(match_length, start_pos, word)`. -/
structure FuzzyMatch where
  match_length : Nat
  start_pos : Nat
  word : List Char
deriving DecidableEq

/-- The per-word body of the loop in `get_completions`:
`matches = list(regex.finditer(word))`; if nonempty,
`best = min(matches, key=lambda m: (m.start(), len(m.group(1))))` and the
word contributes `_FuzzyMatch(len(best.group(1)), best.start(), word)`. -/
def fuzzyMatchOf (q w : List Char) : Option FuzzyMatch :=
  match matchesOf q w with
  | [] => none
  | x :: xs =>
    let best := minBy x xs
    some ⟨best.2, best.1, w⟩

/-- Display labels: `_get_display` returns either the bare word (a plain
unstyled string) or a list of `(style class, text)` fragments. -/
inductive Display where
  | plain (text : List Char)
  | spans (entries : List (String × List Char))
deriving DecidableEq

/-- The character loop of `_get_display` over the matched span: `chars`
is the mutable list `characters = list(word_before_cursor)`; a span
character equal (case-sensitively, Python `==`) to `characters[0]` is
tagged with the `.character` suffix and consumes it (`del characters[0]`). -/
def annotChars : List Char → List Char → List (String × List Char)
  | [], _ => []
  | c :: rest, chars =>
    match chars with
    | q0 :: qrest =>
      if c = q0 then
        ("class:fuzzymatch.inside.character", [c]) :: annotChars rest qrest
      else
        ("class:fuzzymatch.inside", [c]) :: annotChars rest (q0 :: qrest)
    | [] => ("class:fuzzymatch.inside", [c]) :: annotChars rest []

/-- The `_get_display` method.  Python slice clamping
(`word[:start]`, `word[start:start+length]`, `word[start+length:]`)
coincides with `List.take` / `List.drop` clamping. -/
def getDisplay (m : FuzzyMatch) (word_before_cursor : List Char) : Display :=
  if m.match_length = 0 then
    Display.plain m.word
  else
    Display.spans
      (("class:fuzzymatch.outside", m.word.take m.start_pos) ::
        annotChars ((m.word.drop m.start_pos).take m.match_length)
          word_before_cursor ++
        [("class:fuzzymatch.outside",
          m.word.drop (m.start_pos + m.match_length))])

/-- Model of `self.meta_dict.get(word, '')`: association-list lookup with
the empty string as default. -/
def dictGet (d : List (List Char × List Char)) (k : List Char) : List Char :=
  match d with
  | [] => []
  | (k₁, v) :: rest => if k₁ = k then v else dictGet rest k

/-- The record of arguments passed to the `Completion` constructor:
`Completion(match.word, -len(word_before_cursor), display_meta=...,
display=...)`. -/
structure Completion where
  text : List Char
  start_position : Int
  display_meta : List Char
  display : Display
deriving DecidableEq

/-- Building one yielded `Completion` from a ranked match. -/
def mkCompletion (meta_dict : List (List Char × List Char))
    (word_before_cursor : List Char) (m : FuzzyMatch) : Completion :=
  { text := m.word
    start_position := -(word_before_cursor.length : Int)
    display_meta := dictGet meta_dict m.word
    display := getDisplay m word_before_cursor }

/-- The sort key relation of
`sorted(fuzzy_matches, key=lambda fm: (fm.start_pos, fm.match_length))`:
nonstrict lexicographic order on `(start_pos, match_length)`. -/
def fmLe (a b : FuzzyMatch) : Prop :=
  a.start_pos < b.start_pos ∨
    (a.start_pos = b.start_pos ∧ a.match_length ≤ b.match_length)

instance : DecidableRel fmLe := fun a b => by unfold fmLe; infer_instance

/-- The `get_completions` method: match every word, sort the survivors
(Python `sorted` is stable; it is modelled by the stable
`List.insertionSort` over the same key), and emit one `Completion` per
match.  The `sort_results` flag is accepted — mirroring the constructor
parameter the class stores — but the method body never consults it:
the sort is unconditional in the source. -/
def getCompletions (sort_results : Bool) (words : List (List Char))
    (meta_dict : List (List Char × List Char))
    (word_before_cursor : List Char) : List Completion :=
  let fuzzy_matches := words.filterMap fun w => fuzzyMatchOf word_before_cursor w
  let ranked := List.insertionSort fmLe fuzzy_matches
  ranked.map (mkCompletion meta_dict word_before_cursor)

/-- Dynamic (Python-typed) candidate entry: a string or some non-string
object. -/
inductive PyVal where
  | str (s : List Char)
  | obj
deriving DecidableEq

/-- Test of `isinstance(w, string_types)`. -/
def isStr : PyVal → Bool
  | .str _ => true
  | .obj => false

/-- Partial projection of a dynamic entry to its string payload. -/
def asStr : PyVal → Option (List Char)
  | .str s => some s
  | .obj => none

/-- The `__init__` precondition for a static word list:
`assert callable(words) or all(isinstance(w, string_types) for w in words)`.
For a static (non-callable) list the assertion demands every entry be a
string; the assert raises `AssertionError` when this returns `false`. -/
def initAssertPasses (words : List PyVal) : Bool := words.all isStr

/-- Dynamically-typed view of `get_completions`, covering the callable
candidate source whose produced list bypasses the `__init__` assert: the
match loop runs `regex.finditer(word)` eagerly over every word before
anything is yielded, and `finditer` raises `TypeError` on the first
non-string entry, so a list containing any non-string fails the whole
request with no partial results. -/
def getCompletionsDyn (sort_results : Bool) (words : List PyVal)
    (meta_dict : List (List Char × List Char))
    (word_before_cursor : List Char) : Except Unit (List Completion) :=
  if words.all isStr then
    .ok (getCompletions sort_results (words.filterMap asStr) meta_dict
      word_before_cursor)
  else
    .error ()

/-! ## Specification-side notions used to state the claims -/

/-- Q occurs case-insensitively as an in-order subsequence of W. -/
def CISubseq (q w : List Char) : Prop :=
  List.Sublist (q.map Char.toLower) (w.map Char.toLower)

instance (q w : List Char) : Decidable (CISubseq q w) := by
  unfold CISubseq; exact List.decidableSublist _ _

/-- The contiguous span `w[i : i+L]`. -/
def spanOf (w : List Char) (i L : Nat) : List Char := (w.drop i).take L

/-- A valid occurrence span in the sense of the claim: a contiguous span
of `w` containing the query as a case-insensitive in-order subsequence. -/
def ValidSpan (q w : List Char) (i L : Nat) : Prop :=
  i + L ≤ w.length ∧ CISubseq q (spanOf w i L)

instance (q w : List Char) (i L : Nat) : Decidable (ValidSpan q w i L) := by
  unfold ValidSpan; infer_instance

/-- A valid span that moreover begins with a character equal
case-insensitively to the first query character (the only spans the
lookahead regex can report, its group being anchored at the match
position). -/
def TightSpan (q w : List Char) (i L : Nat) : Prop :=
  ValidSpan q w i L ∧
    ∃ c cs d ds, q = c :: cs ∧ spanOf w i L = d :: ds ∧ eqIC d c

/-- The query characters still unconsumed after the annotator walk of
`_get_display` has processed a span prefix `s` against query `q`
(left fold of the consume-on-equality step). -/
def consume1 (q : List Char) (c : Char) : List Char :=
  match q with
  | [] => []
  | q0 :: qrest => if c = q0 then qrest else q0 :: qrest

/-- Remaining query after walking all of `s`. -/
def remQ : List Char → List Char → List Char
  | [], q => q
  | c :: s, q => remQ s (consume1 q c)

/-- The concatenation of all text fragments of a display label. -/
def concatDisplay : Display → List Char
  | .plain s => s
  | .spans l => (l.map (fun p => p.2)).flatten

/-- The characters of a display label carrying the matched-character
style class, in output order. -/
def taggedChars (d : Display) : List Char :=
  match d with
  | .plain _ => []
  | .spans l =>
    ((l.filter fun p => p.1 == "class:fuzzymatch.inside.character").map
      (fun p => p.2)).flatten

/-! ## Basic facts about case-insensitive subsequences -/

theorem CISubseq_nil (w : List Char) : CISubseq [] w := List.nil_sublist _

theorem CISubseq_cons_cons {d c : Char} {q w : List Char} (hdc : eqIC d c)
    (h : CISubseq q w) : CISubseq (c :: q) (d :: w) := by
  unfold CISubseq at *
  simpa [List.map_cons, hdc.symm] using h.cons₂ d.toLower

theorem CISubseq_mono {q w₁ w₂ : List Char} (hw : List.Sublist w₁ w₂)
    (h : CISubseq q w₁) : CISubseq q w₂ :=
  h.trans (hw.map Char.toLower)

theorem CISubseq_cons_right {q w : List Char} (d : Char) (h : CISubseq q w) :
    CISubseq q (d :: w) :=
  CISubseq_mono (List.sublist_cons_self d w) h

/-- A list whose `p`-drop is a cons has length above `p`. -/
theorem drop_cons_lt {α : Type} {l : List α} {p : Nat} {d : α} {t : List α}
    (h : l.drop p = d :: t) : p < l.length := by
  by_contra hge
  rw [List.drop_eq_nil_of_le (Nat.le_of_not_lt hge)] at h
  exact List.cons_ne_nil d t h.symm

/-- Decomposition of a case-insensitive subsequence with a cons head: the
head is matched at some position `p`, and the tail is a subsequence of
what lies beyond `p`. -/
theorem CISubseq_decomp {c : Char} {q s : List Char}
    (h : CISubseq (c :: q) s) :
    ∃ p d t, s.drop p = d :: t ∧ eqIC d c ∧ CISubseq q t := by
  induction s with
  | nil =>
    exfalso
    unfold CISubseq at h
    rw [List.map_cons, List.map_nil, List.sublist_nil] at h
    exact List.cons_ne_nil _ _ h
  | cons e s ih =>
    unfold CISubseq at h
    rw [List.map_cons, List.map_cons, List.sublist_cons_iff] at h
    rcases h with h | ⟨r, hr, hsub⟩
    · obtain ⟨p, d, t, hdrop, hdc, htail⟩ := ih h
      exact ⟨p + 1, d, t, by simpa using hdrop, hdc, htail⟩
    · injection hr with h1 h2
      refine ⟨0, e, s, rfl, h1.symm, ?_⟩
      unfold CISubseq
      rw [h2]
      exact hsub

theorem CISubseq_head_exchange {d c : Char} {q ds : List Char}
    (h : CISubseq (c :: q) (d :: ds)) : CISubseq q ds := by
  obtain ⟨p, d₁, t, hdrop, _, htail⟩ := CISubseq_decomp h
  have ht : List.Sublist t ds := by
    cases p with
    | zero =>
      rw [List.drop_zero] at hdrop
      injection hdrop with h1 h2
      rw [h2]
    | succ p =>
      have h₁ : List.Sublist t (d₁ :: t) := List.sublist_cons_self _ _
      have h₂ : (d :: ds).drop (p + 1) = ds.drop p := rfl
      have h₃ : List.Sublist (ds.drop p) ds := List.drop_sublist _ _
      rw [h₂] at hdrop
      exact (hdrop ▸ h₁).trans h₃
  exact CISubseq_mono ht htail

/-! ## The lazy scan finds the leftmost admissible positions -/

theorem findCharIC_some {c : Char} {w : List Char} {j : Nat}
    (h : findCharIC c w = some j) :
    ∃ d t, w.drop j = d :: t ∧ eqIC d c := by
  induction w generalizing j with
  | nil => simp [findCharIC] at h
  | cons e w ih =>
    unfold findCharIC at h
    by_cases he : eqIC e c
    · rw [if_pos he] at h
      obtain rfl : j = 0 := by simpa using h.symm
      exact ⟨e, w, rfl, he⟩
    · rw [if_neg he] at h
      by_cases hnl : e = '\n'
      · rw [if_pos hnl] at h
        simp at h
      · rw [if_neg hnl] at h
        rw [Option.map_eq_some'] at h
        obtain ⟨j₀, hj₀, rfl⟩ := h
        obtain ⟨d, t, hdrop, hdc⟩ := ih hj₀
        exact ⟨d, t, by simpa using hdrop, hdc⟩

theorem findCharIC_le {c d : Char} {w t : List Char} {p : Nat}
    (hnl : '\n' ∉ w) (hdrop : w.drop p = d :: t) (hdc : eqIC d c) :
    ∃ j, j ≤ p ∧ findCharIC c w = some j := by
  induction w generalizing p with
  | nil =>
    exact absurd (drop_cons_lt hdrop) (by simp)
  | cons e w ih =>
    by_cases he : eqIC e c
    · exact ⟨0, Nat.zero_le _, by simp [findCharIC, he]⟩
    · cases p with
      | zero =>
        rw [List.drop_zero] at hdrop
        injection hdrop with h1 h2
        exact absurd (h1 ▸ hdc) he
      | succ p =>
        have hnl₂ : '\n' ∉ w := fun hm => hnl (List.mem_cons_of_mem _ hm)
        have hne : e ≠ '\n' := fun hh => hnl (hh ▸ List.mem_cons_self _ _)
        obtain ⟨j, hjp, hj⟩ := ih hnl₂ (by simpa using hdrop)
        exact ⟨j + 1, Nat.succ_le_succ hjp,
          by simp [findCharIC, he, hne, hj]⟩

/-- Soundness of the lazy tail scan: a successful scan consumes at most
the whole word and the consumed prefix contains the query characters as
a case-insensitive subsequence. -/
theorem lazyTail_sound {q w : List Char} {r : Nat}
    (h : lazyTail q w = some r) :
    r ≤ w.length ∧ CISubseq q (w.take r) := by
  induction q generalizing w r with
  | nil =>
    obtain rfl : r = 0 := by simpa [lazyTail] using h.symm
    exact ⟨Nat.zero_le _, CISubseq_nil _⟩
  | cons c q ih =>
    unfold lazyTail at h
    rw [Option.bind_eq_some] at h
    obtain ⟨j, hj, hmap⟩ := h
    rw [Option.map_eq_some'] at hmap
    obtain ⟨r₀, hr₀, rfl⟩ := hmap
    obtain ⟨hr₀len, hr₀sub⟩ := ih hr₀
    obtain ⟨d, t, hdrop, hdc⟩ := findCharIC_some hj
    have hjlen : j < w.length := by
      by_contra hge
      rw [List.drop_eq_nil_of_le (Nat.le_of_not_lt hge)] at hdrop
      exact List.cons_ne_nil _ _ hdrop.symm
    constructor
    · have : (w.drop (j + 1)).length = w.length - (j + 1) := by simp
      omega
    · have hd : List.Sublist [c.toLower] ((w.take (j + 1)).map Char.toLower) := by
        rw [List.singleton_sublist]
        have hmem : d ∈ w.take (j + 1) := by
          have h₁ : w.take (j + 1) = w.take j ++ (w.drop j).take 1 :=
            List.take_add w j 1
          rw [h₁, hdrop]
          simp
        have := List.mem_map_of_mem Char.toLower hmem
        rwa [hdc] at this
      have happ : w.take (j + 1 + r₀) =
          w.take (j + 1) ++ (w.drop (j + 1)).take r₀ := List.take_add w (j + 1) r₀
      unfold CISubseq at hr₀sub ⊢
      rw [happ, List.map_append, List.map_cons]
      have := List.Sublist.append hd hr₀sub
      simpa using this

/-- Minimality and completeness of the lazy tail scan: on a newline-free
word, whenever the query occurs case-insensitively inside the first `R`
characters, the scan succeeds and consumes at most `R` characters. -/
theorem lazyTail_min {q w : List Char} {R : Nat} (hnl : '\n' ∉ w)
    (h : CISubseq q (w.take R)) :
    ∃ r, r ≤ R ∧ lazyTail q w = some r := by
  induction q generalizing w R with
  | nil => exact ⟨0, Nat.zero_le _, rfl⟩
  | cons c q ih =>
    obtain ⟨p, d, t, hdrop, hdc, htail⟩ := CISubseq_decomp h
    have hplen : p < (w.take R).length := drop_cons_lt hdrop
    have hpR : p < R := by rw [List.length_take] at hplen; omega
    have hpw : p < w.length := by rw [List.length_take] at hplen; omega
    rw [List.drop_take] at hdrop
    obtain ⟨k, hk⟩ : ∃ k, R - p = k + 1 := ⟨R - p - 1, by omega⟩
    rcases hw : w.drop p with _ | ⟨d₀, t₀⟩
    · exact absurd hpw (by simpa [List.drop_eq_nil_iff] using hw)
    · rw [hw, hk, List.take_succ_cons] at hdrop
      injection hdrop with h1 h2
      subst h1
      obtain ⟨j, hjp, hj⟩ := findCharIC_le hnl hw hdc
      have ht₀ : t₀ = w.drop (p + 1) := by
        have hdd : (w.drop p).drop 1 = w.drop (p + 1) := by
          rw [List.drop_drop]
        rw [hw] at hdd
        simpa using hdd
      have hsub₂ : CISubseq q ((w.drop (j + 1)).take (R - (j + 1))) := by
        have hstep : List.Sublist (t₀.take k)
            ((w.drop (j + 1)).take (R - (j + 1))) := by
          rw [ht₀]
          have h₁ : w.drop (p + 1) = (w.drop (j + 1)).drop (p - j) := by
            rw [List.drop_drop]
            congr 1
            omega
          rw [h₁]
          have h₂ : k = R - (j + 1) - (p - j) := by omega
          rw [h₂, ← List.drop_take]
          exact List.drop_sublist _ _
        exact CISubseq_mono hstep (h2 ▸ htail)
      have hnl₂ : '\n' ∉ w.drop (j + 1) := fun hm =>
        hnl ((List.drop_sublist _ _).mem hm)
      obtain ⟨r₀, hr₀R, hr₀⟩ := ih hnl₂ hsub₂
      refine ⟨j + 1 + r₀, by omega, ?_⟩
      unfold lazyTail
      rw [hj]
      simp [hr₀]

/-! ## The anchored group -/

/-- Shape of a successful anchored match: the word starts with a character
matching the query head, and the lazy tail accounts for the rest. -/
theorem groupLen_cons_elim {c : Char} {q w : List Char} {L : Nat}
    (h : groupLen (c :: q) w = some L) :
    ∃ d w₀ r, w = d :: w₀ ∧ eqIC d c ∧ lazyTail q w₀ = some r ∧ L = r + 1 := by
  match w with
  | [] => simp [groupLen] at h
  | d :: w₀ =>
    simp only [groupLen] at h
    by_cases hdc : eqIC d c
    · rw [if_pos hdc, Option.map_eq_some'] at h
      obtain ⟨r, hr, rfl⟩ := h
      exact ⟨d, w₀, r, rfl, hdc, hr, rfl⟩
    · rw [if_neg hdc] at h
      exact absurd h (by simp)

/-- Introduction form matching `groupLen_cons_elim`. -/
theorem groupLen_cons_intro {c d : Char} {q w₀ : List Char} {r : Nat}
    (hdc : eqIC d c) (hr : lazyTail q w₀ = some r) :
    groupLen (c :: q) (d :: w₀) = some (r + 1) := by
  simp only [groupLen]
  rw [if_pos hdc, hr]
  rfl

/-- A successful anchored match at the start of `w` gives a tight valid
span of `w` there, of exactly the matched length. -/
theorem groupLen_sound {c : Char} {q w : List Char} {L : Nat}
    (h : groupLen (c :: q) w = some L) :
    L ≤ w.length ∧ CISubseq (c :: q) (w.take L) ∧
      ∃ d ds, w.take L = d :: ds ∧ eqIC d c := by
  obtain ⟨d, w₀, r, rfl, hdc, hr, rfl⟩ := groupLen_cons_elim h
  obtain ⟨hrlen, hrsub⟩ := lazyTail_sound hr
  refine ⟨by simpa using Nat.succ_le_succ hrlen, ?_, d, w₀.take r, by simp, hdc⟩
  rw [List.take_succ_cons]
  exact CISubseq_cons_cons hdc hrsub

/-- Completeness of the anchored match on a newline-free word: a tight
span anchored at the start bounds the matched length. -/
theorem groupLen_complete {c : Char} {q w : List Char} {R : Nat}
    (hnl : '\n' ∉ w) {d : Char} {w₀ : List Char} (hw : w = d :: w₀)
    (hdc : eqIC d c) (hsub : CISubseq q (w₀.take R)) :
    ∃ L, L ≤ R + 1 ∧ groupLen (c :: q) w = some L := by
  subst hw
  have hnl₀ : '\n' ∉ w₀ := fun hm => hnl (List.mem_cons_of_mem _ hm)
  obtain ⟨r, hrR, hr⟩ := lazyTail_min hnl₀ hsub
  exact ⟨r + 1, Nat.succ_le_succ hrR, groupLen_cons_intro hdc hr⟩

/-! ## Enumeration of start positions and the minimum -/

theorem mem_matchesOf {q w : List Char} {x : Nat × Nat} :
    x ∈ matchesOf q w ↔
      x.1 ≤ w.length ∧ groupLen q (w.drop x.1) = some x.2 := by
  unfold matchesOf
  rw [List.mem_filterMap]
  constructor
  · rintro ⟨i, hi, hmap⟩
    rw [Option.map_eq_some'] at hmap
    obtain ⟨L, hL, hx⟩ := hmap
    rcases x with ⟨x1, x2⟩
    injection hx with h1 h2
    subst h1; subst h2
    exact ⟨Nat.lt_succ_iff.mp (List.mem_range.mp hi), hL⟩
  · rintro ⟨hle, hgl⟩
    exact ⟨x.1, List.mem_range.mpr (Nat.lt_succ_of_le hle), by simp [hgl]⟩

/-- A `filterMap` of a `Pairwise` list is `Pairwise` for the transported
relation. -/
theorem pairwise_filterMap_of {α β : Type} {R : α → α → Prop}
    {S : β → β → Prop} (f : α → Option β)
    (hf : ∀ a b x y, R a b → f a = some x → f b = some y → S x y) :
    ∀ {l : List α}, List.Pairwise R l → List.Pairwise S (l.filterMap f)
  | [], _ => by simp
  | a :: l, h => by
    rw [List.pairwise_cons] at h
    obtain ⟨hhead, htail⟩ := h
    rw [List.filterMap_cons]
    cases hfa : f a with
    | none => exact pairwise_filterMap_of f hf htail
    | some x =>
      rw [List.pairwise_cons]
      refine ⟨?_, pairwise_filterMap_of f hf htail⟩
      intro y hy
      obtain ⟨b, hb, hfb⟩ := List.mem_filterMap.mp hy
      exact hf a b x y (hhead b hb) hfa hfb

theorem matchesOf_pairwise (q w : List Char) :
    List.Pairwise (fun a b : Nat × Nat => a.1 < b.1) (matchesOf q w) := by
  unfold matchesOf
  refine pairwise_filterMap_of _ ?_ (List.pairwise_lt_range _)
  intro a b x y hab hfa hfb
  rw [Option.map_eq_some'] at hfa hfb
  obtain ⟨_, _, hx⟩ := hfa
  obtain ⟨_, _, hy⟩ := hfb
  rw [← hx, ← hy]
  exact hab

theorem minBy_eq_self {a : Nat × Nat} {l : List (Nat × Nat)}
    (h : ∀ b ∈ l, ¬ pairLt b a) : minBy a l = a := by
  induction l with
  | nil => rfl
  | cons b l ih =>
    unfold minBy at ih ⊢
    rw [List.foldl_cons]
    rw [if_neg (h b (List.mem_cons_self _ _))]
    exact ih fun x hx => h x (List.mem_cons_of_mem _ hx)

/-- Because `finditer` yields at most one match per start position and
positions increase strictly, the Python `min` over the key
`(start, group length)` is simply the first listed match. -/
theorem fuzzyMatchOf_eq_head {q w : List Char} {x : Nat × Nat}
    {xs : List (Nat × Nat)} (h : matchesOf q w = x :: xs) :
    fuzzyMatchOf q w = some ⟨x.2, x.1, w⟩ := by
  have hpw := matchesOf_pairwise q w
  rw [h, List.pairwise_cons] at hpw
  have hmin : minBy x xs = x := by
    refine minBy_eq_self fun b hb hlt => ?_
    have := hpw.1 b hb
    unfold pairLt at hlt
    omega
  unfold fuzzyMatchOf
  rw [h]
  simp [hmin]

theorem matchesOf_eq_nil_iff {q w : List Char} :
    matchesOf q w = [] ↔
      ∀ i, i ≤ w.length → groupLen q (w.drop i) = none := by
  unfold matchesOf
  rw [List.filterMap_eq_nil_iff]
  constructor
  · intro h i hi
    have := h i (List.mem_range.mpr (Nat.lt_succ_of_le hi))
    rwa [Option.map_eq_none'] at this
  · intro h i hi
    rw [Option.map_eq_none']
    exact h i (Nat.lt_succ_iff.mp (List.mem_range.mp hi))

/-- The head of the match list sits at the first viable start position. -/
theorem matchesOf_head_first {q w : List Char} {x : Nat × Nat}
    {xs : List (Nat × Nat)} (h : matchesOf q w = x :: xs) :
    ∀ j, j < x.1 → groupLen q (w.drop j) = none := by
  intro j hj
  have hx : x ∈ matchesOf q w := by rw [h]; exact List.mem_cons_self _ _
  have hxle : x.1 ≤ w.length := (mem_matchesOf.mp hx).1
  cases hgl : groupLen q (w.drop j) with
  | none => rfl
  | some L =>
    exfalso
    have hmem : (j, L) ∈ matchesOf q w :=
      mem_matchesOf.mpr ⟨by omega, hgl⟩
    rw [h] at hmem
    rcases List.mem_cons.mp hmem with heq | hmem₀
    · have hx1 : x.1 = j := by rw [← heq]
      omega
    · have hpw := matchesOf_pairwise q w
      rw [h, List.pairwise_cons] at hpw
      have := hpw.1 _ hmem₀
      simp at this
      omega

/-! ## Tight spans and the matcher optimum -/

/-- Any tight span is reachable by the anchored matcher at its start, with
an anchored match no longer than the span. -/
theorem tight_groupLen {c₀ : Char} {qt w : List Char} {i L : Nat}
    (hnl : '\n' ∉ w) (h : TightSpan (c₀ :: qt) w i L) :
    ∃ L₀, L₀ ≤ L ∧ groupLen (c₀ :: qt) (w.drop i) = some L₀ := by
  obtain ⟨⟨hiL, hsub⟩, c, cs, d, ds, hq, hspan, hdc⟩ := h
  injection hq with hc hcs
  subst hc; subst hcs
  unfold spanOf at hspan hsub
  rcases hw : w.drop i with _ | ⟨d₀, t₀⟩
  · rw [hw] at hspan
    simp at hspan
  · obtain ⟨k, hk⟩ : ∃ k, L = k + 1 := by
      cases L with
      | zero => rw [hw] at hspan; simp at hspan
      | succ k => exact ⟨k, rfl⟩
    subst hk
    rw [hw, List.take_succ_cons] at hspan
    injection hspan with h1 h2
    subst h1
    rw [hw] at hsub
    have hsub₀ : CISubseq qt (t₀.take k) := by
      rw [List.take_succ_cons] at hsub
      exact CISubseq_head_exchange hsub
    have hnl₀ : '\n' ∉ w.drop i := fun hm => hnl ((List.drop_sublist _ _).mem hm)
    rw [hw] at hnl₀
    exact groupLen_complete hnl₀ rfl hdc hsub₀

/-- A query that does not occur case-insensitively as a subsequence of
the word yields no match at any position, hence no occurrence. -/
theorem fuzzyMatchOf_none_of_not_sub {q w : List Char}
    (hns : ¬ CISubseq q w) : fuzzyMatchOf q w = none := by
  rcases hm : matchesOf q w with _ | ⟨x, xs⟩
  · unfold fuzzyMatchOf
    rw [hm]
  · exfalso
    have hx : x ∈ matchesOf q w := by
      rw [hm]; exact List.mem_cons_self _ _
    obtain ⟨_, hxgl⟩ := mem_matchesOf.mp hx
    cases q with
    | nil => exact hns (CISubseq_nil w)
    | cons c qt =>
      obtain ⟨_, hsubx, _⟩ := groupLen_sound hxgl
      exact hns (CISubseq_mono
        ((List.take_sublist _ _).trans (List.drop_sublist _ _)) hsubx)

/-- Claim C1 (amended): on a newline-free word, a nonempty query that
occurs case-insensitively as a subsequence makes the matcher return an
occurrence which is a tight valid span (one beginning with a character
that matches the first query character case-insensitively), optimal among
all tight spans for earliest start and, at equal start, shortest length;
and a query that does not occur yields no occurrence. -/
theorem fuzzyMatchOf_best (c₀ : Char) (qt w : List Char) (hnl : '\n' ∉ w) :
    (CISubseq (c₀ :: qt) w →
      ∃ m, fuzzyMatchOf (c₀ :: qt) w = some m ∧ m.word = w ∧
        TightSpan (c₀ :: qt) w m.start_pos m.match_length ∧
        ∀ i L, TightSpan (c₀ :: qt) w i L →
          m.start_pos ≤ i ∧ (i = m.start_pos → m.match_length ≤ L)) ∧
    (¬ CISubseq (c₀ :: qt) w → fuzzyMatchOf (c₀ :: qt) w = none) := by
  constructor
  · intro hsub
    obtain ⟨p, d, t, hdrop, hdc, htail⟩ := CISubseq_decomp hsub
    have hpw : p < w.length := drop_cons_lt hdrop
    have hglp : ∃ L, L ≤ t.length + 1 ∧ groupLen (c₀ :: qt) (w.drop p) = some L := by
      have hnlp : '\n' ∉ w.drop p := fun hm => hnl ((List.drop_sublist _ _).mem hm)
      refine groupLen_complete hnlp hdrop hdc ?_
      rw [List.take_length]
      exact htail
    obtain ⟨Lp, _, hglp⟩ := hglp
    rcases hm : matchesOf (c₀ :: qt) w with _ | ⟨x, xs⟩
    · exfalso
      rw [matchesOf_eq_nil_iff] at hm
      rw [hm p (Nat.le_of_lt hpw)] at hglp
      exact Option.noConfusion hglp
    · refine ⟨⟨x.2, x.1, w⟩, fuzzyMatchOf_eq_head hm, rfl, ?_, ?_⟩
      · have hx : x ∈ matchesOf (c₀ :: qt) w := by
          rw [hm]; exact List.mem_cons_self _ _
        obtain ⟨hxle, hxgl⟩ := mem_matchesOf.mp hx
        obtain ⟨hlen, hsubx, dx, dsx, hspanx, hdcx⟩ := groupLen_sound hxgl
        have hlen₂ : (w.drop x.1).length = w.length - x.1 := by simp
        refine ⟨⟨?_, hsubx⟩, c₀, qt, dx, dsx, rfl, hspanx, hdcx⟩
        show x.1 + x.2 ≤ w.length
        omega
      · intro i L htight
        obtain ⟨L₀, hL₀, hgl₀⟩ := tight_groupLen hnl htight
        have hile : x.1 ≤ i := by
          by_contra hlt
          rw [matchesOf_head_first hm i (Nat.lt_of_not_le hlt)] at hgl₀
          exact Option.noConfusion hgl₀
        refine ⟨hile, fun hieq => ?_⟩
        have hieq₂ : i = x.1 := hieq
        rw [hieq₂] at hgl₀
        have hxgl : groupLen (c₀ :: qt) (w.drop x.1) = some x.2 :=
          (mem_matchesOf.mp (by rw [hm]; exact List.mem_cons_self _ _)).2
        rw [hxgl] at hgl₀
        injection hgl₀ with hLx
        show x.2 ≤ L
        omega
  · exact fun hns => fuzzyMatchOf_none_of_not_sub hns

/-- Claim C1 as stated fails on the code: for query "a" and word "xa"
the matcher returns the occurrence at start offset 1, yet the span of
"xa" starting at offset 0 with length 2 also contains the query as a
subsequence, i.e. is a valid span with a strictly earlier start offset. -/
theorem claim_C1_counterexample :
    fuzzyMatchOf ['a'] ['x', 'a'] =
        some { match_length := 1, start_pos := 1, word := ['x', 'a'] } ∧
      ValidSpan ['a'] ['x', 'a'] 0 2 ∧ (0 : Nat) < 1 := by
  decide

/-- Witness for the amended claim C1 at query "oar", word "dinosaur". -/
theorem fuzzyMatchOf_best_witness :
    ('\n' ∉ ['d', 'i', 'n', 'o', 's', 'a', 'u', 'r']) ∧
      ((CISubseq ['o', 'a', 'r'] ['d', 'i', 'n', 'o', 's', 'a', 'u', 'r'] →
        ∃ m, fuzzyMatchOf ['o', 'a', 'r'] ['d', 'i', 'n', 'o', 's', 'a', 'u', 'r']
              = some m ∧
          m.word = ['d', 'i', 'n', 'o', 's', 'a', 'u', 'r'] ∧
          TightSpan ['o', 'a', 'r'] ['d', 'i', 'n', 'o', 's', 'a', 'u', 'r']
            m.start_pos m.match_length ∧
          ∀ i L,
            TightSpan ['o', 'a', 'r'] ['d', 'i', 'n', 'o', 's', 'a', 'u', 'r']
              i L →
            m.start_pos ≤ i ∧ (i = m.start_pos → m.match_length ≤ L)) ∧
      (¬ CISubseq ['o', 'a', 'r'] ['d', 'i', 'n', 'o', 's', 'a', 'u', 'r'] →
        fuzzyMatchOf ['o', 'a', 'r'] ['d', 'i', 'n', 'o', 's', 'a', 'u', 'r']
          = none)) :=
  ⟨by decide,
    fuzzyMatchOf_best 'o' ['a', 'r'] ['d', 'i', 'n', 'o', 's', 'a', 'u', 'r']
      (by decide)⟩

/-! ## The empty query -/

/-- An empty query matches every word at start 0 with length 0: position 0
is viable with a zero-length group, and no position with a smaller key can
exist. -/
theorem fuzzyMatchOf_nil_query (w : List Char) :
    fuzzyMatchOf [] w = some ⟨0, 0, w⟩ := by
  obtain ⟨rest, hrest⟩ : ∃ rest, matchesOf [] w = (0, 0) :: rest := by
    unfold matchesOf
    rw [List.range_succ_eq_map, List.filterMap_cons]
    exact ⟨_, rfl⟩
  exact fuzzyMatchOf_eq_head hrest

/-- Claim C6: the empty query yields the trivial occurrence
`(start_offset, match_length) = (0, 0)` on every word, and the annotator
then renders the whole word as one uncategorised span. -/
theorem claim_C6 (w : List Char) :
    fuzzyMatchOf [] w = some ⟨0, 0, w⟩ ∧
      getDisplay ⟨0, 0, w⟩ [] = Display.plain w :=
  ⟨fuzzyMatchOf_nil_query w, rfl⟩

/-! ## The annotator round trip -/

/-- The texts the span walk emits are exactly the span characters. -/
theorem annotChars_texts (s : List Char) :
    ∀ q, ((annotChars s q).map (fun p => p.2)).flatten = s := by
  induction s with
  | nil => intro q; rfl
  | cons c rest ih =>
    intro q
    cases q with
    | nil => simp [annotChars, ih]
    | cons q0 qrest =>
      by_cases h : c = q0 <;> simp [annotChars, h, ih]

/-- Claim C5: concatenating the texts of all annotated spans reproduces
the candidate word, for every occurrence (even inconsistent ones, thanks
to slice clamping) and every query. -/
theorem claim_C5 (m : FuzzyMatch) (q : List Char) :
    concatDisplay (getDisplay m q) = m.word := by
  unfold getDisplay
  by_cases h : m.match_length = 0
  · rw [if_pos h]
    rfl
  · rw [if_neg h]
    simp only [concatDisplay, List.map_cons, List.map_append, List.map_nil,
      List.flatten_cons, List.flatten_append, List.flatten_nil, List.append_nil,
      annotChars_texts]
    rw [← List.drop_drop, List.append_assoc, List.take_append_drop,
      List.take_append_drop]

/-! ## The annotator walk -/

/-- Claim C2 as stated fails on the code: the annotator compares span
characters to query characters with the case-sensitive Python `==`, not
case-insensitively.  Here the span character is uppercase A, the next
unconsumed query character is lowercase a — equal case-insensitively —
yet the emitted category is the plain inside tag, without the
matched-character suffix. -/
theorem claim_C2_counterexample :
    getDisplay { match_length := 1, start_pos := 0, word := ['A'] } ['a'] =
        Display.spans
          [("class:fuzzymatch.outside", []),
            ("class:fuzzymatch.inside", ['A']),
            ("class:fuzzymatch.outside", [])] ∧
      eqIC 'A' 'a' ∧
      "class:fuzzymatch.inside" ≠ "class:fuzzymatch.inside.character" := by
  decide

/-- Position-wise description of the annotator walk: the entry at index
`i` carries the text of span character `i`, and its category carries the
matched-character suffix exactly when that character equals — by the
case-sensitive `==` of the source — the head of the yet unconsumed query
characters, the walk having consumed query characters along the first
`i` span characters as recorded by `remQ`. -/
theorem annotChars_getq (s : List Char) :
    ∀ (qq : List Char) (i : Nat) (c : Char), s.get? i = some c →
      (annotChars s qq).get? i =
        some
          (if (remQ (s.take i) qq).head? = some c
            then "class:fuzzymatch.inside.character"
            else "class:fuzzymatch.inside", [c]) := by
  induction s with
  | nil => intro qq i c h; simp at h
  | cons c₀ rest ih =>
    intro qq i c h
    cases i with
    | zero =>
      rw [List.get?_cons_zero] at h
      injection h with hc
      subst hc
      cases qq with
      | nil => simp [annotChars, remQ]
      | cons q0 qrest =>
        by_cases hq : c₀ = q0
        · subst hq
          simp [annotChars, remQ]
        · have hq₂ : ¬ q0 = c₀ := fun hh => hq hh.symm
          simp [annotChars, remQ, hq, hq₂]
    | succ i =>
      rw [List.get?_cons_succ] at h
      have hih := ih (consume1 qq c₀) i c h
      cases qq with
      | nil => simpa [annotChars, remQ, consume1] using hih
      | cons q0 qrest =>
        by_cases hq : c₀ = q0
        · simpa [annotChars, remQ, consume1, hq] using hih
        · simpa [annotChars, remQ, consume1, hq] using hih

/-- Claim C2 (amended): for a positive-length occurrence the annotator
emits the prefix region, the matched span walked character by character,
and the suffix region; within the walk a span character is tagged with
the matched-character category exactly when it equals — case-sensitively,
as in the source, not case-insensitively as the claim stated — the next
unconsumed query character, which is then consumed. -/
theorem claim_C2_amended (m : FuzzyMatch) (q : List Char)
    (h : m.match_length ≠ 0) :
    getDisplay m q = Display.spans
      (("class:fuzzymatch.outside", m.word.take m.start_pos) ::
        annotChars ((m.word.drop m.start_pos).take m.match_length) q ++
        [("class:fuzzymatch.outside",
          m.word.drop (m.start_pos + m.match_length))]) ∧
    ∀ (s qq : List Char) (i : Nat) (c : Char), s.get? i = some c →
      (annotChars s qq).get? i =
        some
          (if (remQ (s.take i) qq).head? = some c
            then "class:fuzzymatch.inside.character"
            else "class:fuzzymatch.inside", [c]) := by
  constructor
  · unfold getDisplay
    rw [if_neg h]
  · exact fun s => annotChars_getq s

/-- Witness for the amended claim C2 at the occurrence of "aXb" for
query "ab". -/
theorem claim_C2_amended_witness :
    (({ match_length := 3, start_pos := 0, word := ['a', 'X', 'b'] } :
        FuzzyMatch).match_length ≠ 0) ∧
      (getDisplay { match_length := 3, start_pos := 0, word := ['a', 'X', 'b'] }
          ['a', 'b'] = Display.spans
        (("class:fuzzymatch.outside",
            List.take
              ({ match_length := 3, start_pos := 0, word := ['a', 'X', 'b'] } :
                FuzzyMatch).start_pos ['a', 'X', 'b']) ::
          annotChars
            (List.take 3 (List.drop 0 ['a', 'X', 'b'])) ['a', 'b'] ++
          [("class:fuzzymatch.outside", List.drop (0 + 3) ['a', 'X', 'b'])]) ∧
      ∀ (s qq : List Char) (i : Nat) (c : Char), s.get? i = some c →
        (annotChars s qq).get? i =
          some
            (if (remQ (s.take i) qq).head? = some c
              then "class:fuzzymatch.inside.character"
              else "class:fuzzymatch.inside", [c])) :=
  ⟨by decide,
    claim_C2_amended { match_length := 3, start_pos := 0, word := ['a', 'X', 'b'] }
      ['a', 'b'] (by decide)⟩

/-! ## Tagged characters form a query prefix -/

/-- The walk tags exactly an initial segment of the query: the tagged
texts followed by the unconsumed remainder reassemble the query. -/
theorem annot_tagged (s : List Char) :
    ∀ q, (((annotChars s q).filter fun p =>
          p.1 == "class:fuzzymatch.inside.character").map (fun p => p.2)).flatten
        ++ remQ s q = q := by
  induction s with
  | nil => intro q; simp [annotChars, remQ]
  | cons c rest ih =>
    intro q
    cases q with
    | nil =>
      simp only [annotChars, remQ, consume1, List.filter_cons]
      rw [if_neg (by decide)]
      simpa using ih []
    | cons q0 qr =>
      by_cases hq : c = q0
      · subst hq
        simp only [annotChars, remQ, consume1, if_pos rfl, List.filter_cons]
        rw [if_pos (by decide)]
        simpa using congrArg (List.cons c) (ih qr)
      · simp only [annotChars, remQ, consume1, if_neg hq, List.filter_cons]
        rw [if_neg (by decide)]
        simpa using ih (q0 :: qr)

/-- Claim C10: the characters tagged with the matched-character category,
read in output order, are a take-prefix of the query (so in particular at
most the query length many characters carry the tag). -/
theorem claim_C10 (m : FuzzyMatch) (q : List Char)
    (h : 0 < m.match_length) :
    ∃ k, k ≤ q.length ∧ taggedChars (getDisplay m q) = q.take k := by
  have hne : m.match_length ≠ 0 := Nat.pos_iff_ne_zero.mp h
  unfold getDisplay
  rw [if_neg hne]
  simp only [taggedChars, List.filter_cons, List.filter_append]
  rw [if_neg (by decide), if_neg (by decide)]
  have hkey := annot_tagged ((m.word.drop m.start_pos).take m.match_length) q
  set T := (((annotChars ((m.word.drop m.start_pos).take m.match_length)
      q).filter fun p =>
      p.1 == "class:fuzzymatch.inside.character").map (fun p => p.2)).flatten
    with hT
  refine ⟨T.length, ?_, ?_⟩
  · have := congrArg List.length hkey
    rw [List.length_append] at this
    omega
  · have hq : q.take T.length = T := by
      conv_lhs => rw [← hkey]
      exact List.take_left _ _
    rw [hq]
    simp only [List.filter_nil, List.append_nil]

/-- Witness for claim C10 at the occurrence of "aXb" for query "ab". -/
theorem claim_C10_witness :
    ((0 : Nat) <
        ({ match_length := 3, start_pos := 0, word := ['a', 'X', 'b'] } :
          FuzzyMatch).match_length) ∧
      ∃ k, k ≤ (['a', 'b'] : List Char).length ∧
        taggedChars
            (getDisplay
              { match_length := 3, start_pos := 0, word := ['a', 'X', 'b'] }
              ['a', 'b']) =
          List.take k ['a', 'b'] :=
  ⟨by decide,
    claim_C10 { match_length := 3, start_pos := 0, word := ['a', 'X', 'b'] }
      ['a', 'b'] (by decide)⟩

/-! ## Ranking: sortedness and stability -/

instance : IsTotal FuzzyMatch fmLe :=
  ⟨by intro a b; unfold fmLe; omega⟩

instance : IsTrans FuzzyMatch fmLe :=
  ⟨by intro a b c; unfold fmLe; omega⟩

/-- Filtering commutes with a single ordered insertion when every element
satisfying the filter is related to the inserted element on both sides
whenever the latter satisfies it too. -/
theorem filter_orderedInsert {α : Type} (r : α → α → Prop) [DecidableRel r]
    (p : α → Bool) (a : α) (l : List α)
    (hp : ∀ b, p a = true → p b = true → r a b) :
    (List.orderedInsert r a l).filter p =
      if p a then a :: l.filter p else l.filter p := by
  rw [List.orderedInsert_eq_take_drop, List.filter_append, List.filter_cons]
  by_cases hpa : p a
  · rw [if_pos hpa, if_pos hpa]
    have htw : (l.takeWhile fun b => decide (¬ r a b)).filter p = [] := by
      rw [List.filter_eq_nil_iff]
      intro b hb hpb
      have hq := List.mem_takeWhile_imp hb
      have hq₂ : ¬ r a b := by simpa using hq
      exact hq₂ (hp b hpa hpb)
    rw [htw, List.nil_append]
    have hl : l.filter p =
        (l.dropWhile fun b => decide (¬ r a b)).filter p := by
      conv_lhs =>
        rw [← List.takeWhile_append_dropWhile (fun b => decide (¬ r a b)) l]
      rw [List.filter_append, htw, List.nil_append]
    rw [hl]
  · rw [if_neg hpa, if_neg hpa, ← List.filter_append,
      List.takeWhile_append_dropWhile]

/-- A stable sort does not reorder the elements selected by a filter that
only distinguishes key-equal classes: filtering the insertion sort gives
the filter of the input. -/
theorem filter_insertionSort {α : Type} (r : α → α → Prop) [DecidableRel r]
    (p : α → Bool) (hp : ∀ a b, p a = true → p b = true → r a b) :
    ∀ l : List α, (List.insertionSort r l).filter p = l.filter p
  | [] => rfl
  | a :: l => by
    rw [List.insertionSort,
      filter_orderedInsert r p a _ (fun b => hp a b),
      filter_insertionSort r p hp l, List.filter_cons]

/-- Claim C4: with ranking on, the output is the completions of the
stable sort of the matched occurrences by `(start_pos, match_length)`;
that list is sorted under the lexicographic key order, and for any fixed
key value the occurrences carrying it appear exactly as they do in the
unsorted (candidate-ordered) match list — stability. -/
theorem claim_C4 (words : List (List Char))
    (meta_dict : List (List Char × List Char)) (q : List Char) :
    getCompletions true words meta_dict q =
        (List.insertionSort fmLe
            (words.filterMap fun w => fuzzyMatchOf q w)).map
          (mkCompletion meta_dict q) ∧
      List.Sorted fmLe
        (List.insertionSort fmLe (words.filterMap fun w => fuzzyMatchOf q w)) ∧
      ∀ s L : Nat,
        (List.insertionSort fmLe
              (words.filterMap fun w => fuzzyMatchOf q w)).filter
            (fun m => m.start_pos == s && m.match_length == L) =
          (words.filterMap fun w => fuzzyMatchOf q w).filter
            (fun m => m.start_pos == s && m.match_length == L) := by
  refine ⟨rfl, List.sorted_insertionSort fmLe _, ?_⟩
  intro s L
  refine filter_insertionSort fmLe _ ?_ _
  intro a b ha hb
  simp only [Bool.and_eq_true, beq_iff_eq] at ha hb
  unfold fmLe
  omega

/-- Claim C3 is contradicted by the code: `get_completions` never reads
`sort_results` — the output is identical for both flag values — and with
the flag off the results still come out sorted by
`(start_pos, match_length)` rather than in candidate order: for words
["ab", "bb"] and query "b" the output order is ["bb", "ab"], not the
original ["ab", "bb"]. -/
theorem claim_C3_bug :
    (∀ (s₁ s₂ : Bool) (words : List (List Char))
        (md : List (List Char × List Char)) (q : List Char),
      getCompletions s₁ words md q = getCompletions s₂ words md q) ∧
      (getCompletions false [['a', 'b'], ['b', 'b']] [] ['b']).map
          (fun c => c.text) = [['b', 'b'], ['a', 'b']] ∧
      [['b', 'b'], ['a', 'b']] ≠ [['a', 'b'], ['b', 'b']] :=
  ⟨fun _ _ _ _ _ => rfl, by decide, by decide⟩

/-! ## Exclusion of non-matching candidates -/

/-- Claim C7: a candidate word in which the query does not occur as a
case-insensitive subsequence contributes nothing to the output while the
remaining candidates are processed unchanged, and an empty candidate list
produces an empty output. -/
theorem claim_C7 (s : Bool) (ws₁ ws₂ : List (List Char)) (w : List Char)
    (md : List (List Char × List Char)) (q : List Char)
    (h : ¬ CISubseq q w) :
    getCompletions s (ws₁ ++ w :: ws₂) md q =
        getCompletions s (ws₁ ++ ws₂) md q ∧
      getCompletions s [] md q = [] := by
  refine ⟨?_, rfl⟩
  have hnone : fuzzyMatchOf q w = none := fuzzyMatchOf_none_of_not_sub h
  have harg : (ws₁ ++ w :: ws₂).filterMap (fun w => fuzzyMatchOf q w) =
      (ws₁ ++ ws₂).filterMap (fun w => fuzzyMatchOf q w) := by
    rw [List.filterMap_append, List.filterMap_append, List.filterMap_cons,
      hnone]
  simp only [getCompletions]
  rw [harg]

/-- Witness for claim C7: the word "xx" does not contain the query "y",
so it is dropped while "cat" is still processed. -/
theorem claim_C7_witness :
    (¬ CISubseq ['y'] ['x', 'x']) ∧
      (getCompletions true [['c', 'a', 't'], ['x', 'x']] [] ['y'] =
          getCompletions true [['c', 'a', 't']] [] ['y'] ∧
        getCompletions true [] [] ['y'] = []) :=
  ⟨by decide, claim_C7 true [['c', 'a', 't']] [] ['x', 'x'] [] ['y'] (by decide)⟩

/-! ## Shape of each emitted result -/

/-- Claim C8: every emitted completion deletes exactly the query length
before the cursor (`start_position = -len(query)`) and carries the
metadata string obtained by looking its word up in the metadata mapping,
the empty string when absent. -/
theorem claim_C8 (s : Bool) (words : List (List Char))
    (md : List (List Char × List Char)) (q : List Char) (c : Completion)
    (hc : c ∈ getCompletions s words md q) :
    c.start_position = -(q.length : Int) ∧
      c.display_meta = dictGet md c.text := by
  simp only [getCompletions] at hc
  rw [List.mem_map] at hc
  obtain ⟨m, _, rfl⟩ := hc
  exact ⟨rfl, rfl⟩

/-- Witness for claim C8 on the metadata scenario: words "cat" and "dog",
query "c", metadata {"cat": "animal"}. -/
theorem claim_C8_witness :
    ((⟨['c', 'a', 't'], -1, ['a', 'n', 'i', 'm', 'a', 'l'],
        Display.spans
          [("class:fuzzymatch.outside", []),
            ("class:fuzzymatch.inside.character", ['c']),
            ("class:fuzzymatch.outside", ['a', 't'])]⟩ : Completion) ∈
        getCompletions true [['c', 'a', 't'], ['d', 'o', 'g']]
          [(['c', 'a', 't'], ['a', 'n', 'i', 'm', 'a', 'l'])] ['c']) ∧
      ((⟨['c', 'a', 't'], -1, ['a', 'n', 'i', 'm', 'a', 'l'],
          Display.spans
            [("class:fuzzymatch.outside", []),
              ("class:fuzzymatch.inside.character", ['c']),
              ("class:fuzzymatch.outside", ['a', 't'])]⟩ : Completion).start_position
          = -(((['c'] : List Char)).length : Int) ∧
        (⟨['c', 'a', 't'], -1, ['a', 'n', 'i', 'm', 'a', 'l'],
          Display.spans
            [("class:fuzzymatch.outside", []),
              ("class:fuzzymatch.inside.character", ['c']),
              ("class:fuzzymatch.outside", ['a', 't'])]⟩ : Completion).display_meta
          = dictGet [(['c', 'a', 't'], ['a', 'n', 'i', 'm', 'a', 'l'])]
              (⟨['c', 'a', 't'], -1, ['a', 'n', 'i', 'm', 'a', 'l'],
                Display.spans
                  [("class:fuzzymatch.outside", []),
                    ("class:fuzzymatch.inside.character", ['c']),
                    ("class:fuzzymatch.outside", ['a', 't'])]⟩ : Completion).text) :=
  ⟨by decide,
    claim_C8 true [['c', 'a', 't'], ['d', 'o', 'g']]
      [(['c', 'a', 't'], ['a', 'n', 'i', 'm', 'a', 'l'])] ['c'] _ (by decide)⟩

/-! ## Non-string candidates -/

/-- Claim C9: a candidate source containing a non-string entry violates
the precondition and fails the whole request — the static-list assert in
the constructor rejects it, and a request over such a produced list
errors out with no partial results. -/
theorem claim_C9 (s : Bool) (words : List PyVal)
    (md : List (List Char × List Char)) (q : List Char)
    (h : ∃ v ∈ words, isStr v = false) :
    initAssertPasses words = false ∧
      getCompletionsDyn s words md q = .error () := by
  obtain ⟨v, hv, hvs⟩ := h
  have hall : words.all isStr = false := by
    by_contra hne
    rw [Bool.not_eq_false, List.all_eq_true] at hne
    rw [hne v hv] at hvs
    exact Bool.noConfusion hvs
  refine ⟨hall, ?_⟩
  simp [getCompletionsDyn, hall]

/-- Witness for claim C9 on a one-element candidate list holding a
non-string object. -/
theorem claim_C9_witness :
    (∃ v ∈ [PyVal.obj], isStr v = false) ∧
      (initAssertPasses [PyVal.obj] = false ∧
        getCompletionsDyn true [PyVal.obj] [] ['a'] = .error ()) :=
  ⟨by decide, claim_C9 true [PyVal.obj] [] ['a'] (by decide)⟩

end FuzzyCompleter
